import Mathlib

/-!
Verification of the chess rules engine of `rust_chess_workshop`.

The board, check detection and legality filtering come from `src/board.rs`,
the pawn movement from `src/piece/pawn.rs`, and the diagonal tables from
`src/task_7/piece/bishop.rs`.  Code of the repository that is not under
`src/` (the square/notation module and the finished movement of the rook,
knight, bishop, queen and king) is modelled from the specification and is
marked as such in its doc comment.

Positions are pairs `(rank, file)` of natural numbers; occupancy sets are
finite sets of positions; fallible operations (code that unwraps or panics)
return `Option`.
-/

namespace ChessWorkshop

/-- A board position `(rank, file)`; the source uses `(u8, u8)`. -/
abbrev Pos := Nat × Nat

/-- Piece color, from `color.rs` (not under src, but fixed by the spec). -/
inductive Color where
| white
| black
deriving DecidableEq, Repr

/-- The `opposite()` operation on colors. -/
def Color.opposite : Color → Color
| .white => .black
| .black => .white

/-- The six piece kinds; the source uses one struct per kind behind a
common `Piece` trait. -/
inductive PieceKind where
| pawn
| rook
| knight
| bishop
| queen
| king
deriving DecidableEq, Repr

/-- A piece: its kind tag together with the `color` and `position` fields
every piece struct carries in the source. -/
structure Piece where
  kind : PieceKind
  color : Color
  pos : Pos
deriving DecidableEq, Repr

/-- Modelled from the spec: the square module (not under src) converts a set
of signed coordinate pairs to board positions, discarding off-board
candidates (any component below 0 or above 7).  This is the behaviour of
`as_board_positions` used by `pawn.rs`. -/
def asBoardPositions (s : Finset (Int × Int)) : Finset Pos :=
  (s.filter (fun q => 0 ≤ q.1 ∧ q.1 ≤ 7 ∧ 0 ≤ q.2 ∧ q.2 ≤ 7)).image
    (fun q => (q.1.toNat, q.2.toNat))

/-- Quiet (non-capturing) pawn destinations, from `Pawn::get_pawn_moves`:
a White pawn on rank 1 gets ranks 2 and 3, otherwise rank `y + 1`; a Black
pawn on rank 6 gets ranks 5 and 4, otherwise rank `y - 1`; the result is
filtered to on-board squares. -/
def pawnMoves (c : Color) (pos : Pos) : Finset Pos :=
  let y : Int := pos.1
  let x : Int := pos.2
  let moves : Finset (Int × Int) :=
    match c with
    | .white => if pos.1 = 1 then {(2, x), (3, x)} else {(y + 1, x)}
    | .black => if pos.1 = 6 then {(5, x), (4, x)} else {(y - 1, x)}
  asBoardPositions moves

/-- Diagonal capture candidates, from `Pawn::get_pawn_capture_moves`:
the two forward diagonals, filtered to on-board squares. -/
def pawnCaptureMoves (c : Color) (pos : Pos) : Finset Pos :=
  let y : Int := pos.1
  let x : Int := pos.2
  let captureMoves : Finset (Int × Int) :=
    match c with
    | .white => {(y + 1, x - 1), (y + 1, x + 1)}
    | .black => {(y - 1, x - 1), (y - 1, x + 1)}
  asBoardPositions captureMoves

/-- Pawn pseudo-legal moves, from `Pawn::get_moves`: quiet moves minus all
occupied squares, together with diagonal candidates that hold a rival
piece. -/
def pawnGetMoves (c : Color) (pos : Pos) (team rival : Finset Pos) :
    Finset Pos :=
  let allPieces := team ∪ rival
  let moves := pawnMoves c pos \ allPieces
  let captureMoves := pawnCaptureMoves c pos ∩ rival
  moves ∪ captureMoves

/-- Whether a signed coordinate pair lies on the board. -/
def onBoard (q : Int × Int) : Prop :=
  0 ≤ q.1 ∧ q.1 ≤ 7 ∧ 0 ≤ q.2 ∧ q.2 ≤ 7

instance (q : Int × Int) : Decidable (onBoard q) := by
  unfold onBoard; infer_instance

/-- Conversion of an on-board signed pair to a position. -/
def toPos (q : Int × Int) : Pos := (q.1.toNat, q.2.toNat)

/-- Modelled from the spec: the sliding-piece ray walk (the finished rook
and bishop movement is not under src).  Starting next to `q` in direction
`dir`, include each square until and including the first occupied square if
that square holds a rival piece; a square held by the own team stops the
ray before it.  The fuel bounds the walk by the board diameter. -/
def walkRay (team rival : Finset Pos) (dir : Int × Int) :
    Int × Int → Nat → List Pos
| _, 0 => []
| q, n + 1 =>
  let q2 := (q.1 + dir.1, q.2 + dir.2)
  if onBoard q2 then
    if toPos q2 ∈ rival then [toPos q2]
    else if toPos q2 ∈ team then []
    else toPos q2 :: walkRay team rival dir q2 n
  else []

/-- The four orthogonal ray directions. -/
def rookDirs : List (Int × Int) := [(1, 0), (-1, 0), (0, 1), (0, -1)]

/-- The four diagonal ray directions. -/
def bishopDirs : List (Int × Int) := [(1, 1), (1, -1), (-1, 1), (-1, -1)]

/-- Union of the ray walks from `pos` in the given directions. -/
def raysFrom (dirs : List (Int × Int)) (pos : Pos) (team rival : Finset Pos) :
    Finset Pos :=
  (dirs.flatMap (fun dir =>
    walkRay team rival dir ((pos.1 : Int), (pos.2 : Int)) 8)).toFinset

/-- Modelled from the spec: rook pseudo-legal moves are the four orthogonal
ray walks. -/
def rookMoves (pos : Pos) (team rival : Finset Pos) : Finset Pos :=
  raysFrom rookDirs pos team rival

/-- Modelled from the spec: bishop pseudo-legal moves are the four diagonal
ray walks. -/
def bishopMoves (pos : Pos) (team rival : Finset Pos) : Finset Pos :=
  raysFrom bishopDirs pos team rival

/-- Modelled from the spec: queen pseudo-legal moves are the union of the
rook ray set and the bishop ray set from the same position (the task_7
`Queen::get_moves` body is an unimplemented exercise stub). -/
def queenMoves (pos : Pos) (team rival : Finset Pos) : Finset Pos :=
  rookMoves pos team rival ∪ bishopMoves pos team rival

/-- Modelled from the spec: the eight knight offsets, filtered to on-board
squares and to squares not occupied by the own team. -/
def knightMoves (pos : Pos) (team : Finset Pos) : Finset Pos :=
  let y : Int := pos.1
  let x : Int := pos.2
  asBoardPositions
    {(y + 2, x + 1), (y + 2, x - 1), (y - 2, x + 1), (y - 2, x - 1),
     (y + 1, x + 2), (y + 1, x - 2), (y - 1, x + 2), (y - 1, x - 2)} \ team

/-- Modelled from the spec: the eight adjacent squares, filtered to
on-board squares and to squares not occupied by the own team. -/
def kingMoves (pos : Pos) (team : Finset Pos) : Finset Pos :=
  let y : Int := pos.1
  let x : Int := pos.2
  asBoardPositions
    {(y + 1, x - 1), (y + 1, x), (y + 1, x + 1), (y, x - 1), (y, x + 1),
     (y - 1, x - 1), (y - 1, x), (y - 1, x + 1)} \ team

/-- Dispatch of `get_moves` over the piece kind, as the dynamic trait call
does in the source. -/
def Piece.getMoves (p : Piece) (team rival : Finset Pos) : Finset Pos :=
  match p.kind with
  | .pawn => pawnGetMoves p.color p.pos team rival
  | .rook => rookMoves p.pos team rival
  | .knight => knightMoves p.pos team
  | .bishop => bishopMoves p.pos team rival
  | .queen => queenMoves p.pos team rival
  | .king => kingMoves p.pos team

/-! ### The board, from `src/board.rs`

The `HashMap<(u8, u8), Box<dyn Piece>>` is modelled as an association list
from positions to pieces; lookup returns the first binding of a key and
removal drops every binding of a key, which agree with the hash map on the
duplicate-free lists every board operation produces. -/

/-- The board: the `pieces` map of `Board`. -/
structure Board where
  pieces : List (Pos × Piece)
deriving DecidableEq, Repr

/-- Map lookup: the piece stored under position `p`, if any. -/
def Board.lookup (b : Board) (p : Pos) : Option Piece :=
  (b.pieces.find? (fun e => decide (e.1 = p))).map (fun e => e.2)

/-- Removal of every binding of key `p` (the hash map remove). -/
def removeKey (l : List (Pos × Piece)) (p : Pos) : List (Pos × Piece) :=
  l.filter (fun e => decide (e.1 ≠ p))

/-- `Board::move_piece`: take the piece at `position` (unwrap, hence
`none` when the square is empty), overwrite its recorded position with the
target, remove whatever occupies the target and re-insert the mover under
the target key. -/
def Board.movePiece (b : Board) (p t : Pos) : Option Board :=
  (b.lookup p).map (fun pc =>
    ⟨(t, { pc with pos := t }) :: removeKey (removeKey b.pieces p) t⟩)

/-- `Board::get_positions`: the set of squares occupied by pieces of color
`c`. -/
def Board.positions (b : Board) (c : Color) : Finset Pos :=
  ((b.pieces.filter (fun e => decide (e.2.color = c))).map
    (fun e => e.1)).toFinset

/-- `Board::get_king_position`: the recorded position of the first piece of
color `c` whose name is the king name (kinds and names are in bijection, so
the name test is the kind test); `none` models the unwrap failing when no
such piece exists. -/
def Board.getKingPosition (b : Board) (c : Color) : Option Pos :=
  (b.pieces.find? (fun e =>
    decide (e.2.color = c ∧ e.2.kind = PieceKind.king))).map
    (fun e => e.2.pos)

/-- `Board::is_check`: locate the king of color `c` (aborting when there is
none), then ask whether some piece of the opposite color has the king
square among its pseudo-legal moves, computed with the team and rival sets
reversed relative to `c`. -/
def Board.isCheck (b : Board) (c : Color) : Option Bool :=
  (b.getKingPosition c).map (fun kp =>
    let team := b.positions c
    let rival := b.positions c.opposite
    (b.pieces.filter (fun e => decide (e.2.color = c.opposite))).any
      (fun e => decide (kp ∈ e.2.getMoves rival team)))

/-- One simulation step of `get_legal_squares`: clone the board, apply
`move_piece` from the mover recorded position to `d`, then test check for
color `c`; `none` models a panic inside the simulation. -/
def simCheck (b : Board) (pc : Piece) (c : Color) (d : Pos) : Option Bool :=
  (b.movePiece pc.pos d).bind (fun b2 => b2.isCheck c)

/-- `Board::get_legal_squares`: abort when the square is empty; otherwise
compute the piece pseudo-legal moves and keep the destinations whose
simulated board is not in check for the mover color.  The whole call
aborts when any simulation aborts. -/
def Board.getLegalSquares (b : Board) (p : Pos) : Option (Finset Pos) :=
  (b.lookup p).bind (fun pc =>
    let c := pc.color
    let moves := pc.getMoves (b.positions c) (b.positions c.opposite)
    if _h : ∀ d ∈ moves, (simCheck b pc c d).isSome
    then some (moves.filter (fun d => simCheck b pc c d = some false))
    else none)

/-- Display names of the piece kinds; pawn, bishop and queen are the
constants under src, the rest are modelled from the spec (their files are
not under src) as distinct constants. -/
def pieceName : PieceKind → String
| .pawn => "bonde"
| .rook => "rook"
| .knight => "knight"
| .bishop => "laupar"
| .queen => "dronning"
| .king => "king"

/-- Modelled from the spec: the square module format operation, mapping a
position to its two-character algebraic name (file letter, then rank
digit). -/
def posAsString (p : Pos) : String :=
  String.mk [Char.ofNat (97 + p.2), Char.ofNat (49 + p.1)]

/-- `Board::capture`: print an announcement naming the capturing piece,
its origin, the captured piece and the destination, then delegate to
`move_piece`.  Both `get_piece_name` calls unwrap, so the call aborts when
either square is empty; the announcement is returned as data. -/
def Board.capture (b : Board) (p t : Pos) : Option (String × Board) :=
  match b.lookup p, b.lookup t with
  | some pc1, some pc2 =>
    (b.movePiece p t).map (fun b2 =>
      (pieceName pc1.kind ++ " fra " ++ posAsString p ++ " fangar " ++
        pieceName pc2.kind ++ " på " ++ posAsString t, b2))
  | _, _ => none

/-- Modelled from the spec: the square module parse operation (used by
`do_move` through `as_u8`): a two-character string, file letter a to h
(case-insensitive) and rank digit 1 to 8, mapped to `(digit - 1,
letter - a)`; `none` on any other input. -/
def parseSquare (s : String) : Option Pos :=
  match s.toList with
  | [c1, c2] =>
    let f := c1.toLower.toNat
    let r := c2.toNat
    if 97 ≤ f ∧ f ≤ 104 ∧ 49 ≤ r ∧ r ≤ 56 then
      some (r - 49, f - 97)
    else none
  | _ => none

/-- `Board::do_move`: parse the origin and target names (unwrap, hence
`none` on malformed input) and delegate to `move_piece`. -/
def Board.doMove (b : Board) (s t : String) : Option Board :=
  (parseSquare s).bind (fun p =>
    (parseSquare t).bind (fun q => b.movePiece p q))

/-- The pieces of one team at setup, in the construction order of
`Board::new`: the eight pawns on the pawn row, then the officers
rook, knight, bishop, queen, king, bishop, knight, rook on files 0 to 7 of
the officer row. -/
def teamPieces (c : Color) (officerRow pawnRow : Nat) : List Piece :=
  ((List.range 8).map (fun col => ⟨.pawn, c, (pawnRow, col)⟩)) ++
    [⟨.rook, c, (officerRow, 0)⟩, ⟨.knight, c, (officerRow, 1)⟩,
     ⟨.bishop, c, (officerRow, 2)⟩, ⟨.queen, c, (officerRow, 3)⟩,
     ⟨.king, c, (officerRow, 4)⟩, ⟨.bishop, c, (officerRow, 5)⟩,
     ⟨.knight, c, (officerRow, 6)⟩, ⟨.rook, c, (officerRow, 7)⟩]

/-- `Board::new`: White with officer row 0 and pawn row 1, then Black with
officer row 7 and pawn row 6, each piece keyed under its own recorded
position. -/
def Board.new : Board :=
  ⟨(teamPieces .white 0 1 ++ teamPieces .black 7 6).map
    (fun pc => (pc.pos, pc))⟩

/-! ### The diagonal tables of `src/task_7/piece/bishop.rs` -/

/-- `Bishop::get_south_east_diagonal`: the table indexed by the
anti-diagonal sum `rank + file`; `none` models the wildcard panic arm. -/
def getSouthEastDiagonal (pos : Pos) : Option (List Pos) :=
  match pos.1 + pos.2 with
  | 0 => some [(0, 0)]
  | 1 => some [(0, 1), (1, 0)]
  | 2 => some [(0, 2), (1, 1), (2, 0)]
  | 3 => some [(0, 3), (1, 2), (2, 1), (3, 0)]
  | 4 => some [(0, 4), (1, 3), (2, 2), (3, 1), (4, 0)]
  | 5 => some [(0, 5), (1, 4), (2, 3), (3, 2), (4, 1), (5, 0)]
  | 6 => some [(0, 6), (1, 5), (2, 4), (3, 3), (4, 2), (5, 1), (6, 0)]
  | 7 => some [(0, 7), (1, 6), (2, 5), (3, 4), (4, 3), (5, 2), (6, 1),
               (7, 0)]
  | 8 => some [(1, 7), (2, 6), (3, 5), (4, 4), (5, 3), (6, 2), (7, 1)]
  | 9 => some [(2, 7), (3, 6), (4, 5), (5, 4), (6, 3), (7, 2)]
  | 10 => some [(3, 7), (4, 6), (5, 5), (6, 4), (7, 3)]
  | 11 => some [(4, 7), (5, 6), (6, 5), (7, 4)]
  | 12 => some [(5, 7), (6, 6), (7, 5)]
  | 13 => some [(6, 7), (7, 6)]
  | 14 => some [(7, 7)]
  | _ => none

/-- `Bishop::get_north_east_diagonal`: the table indexed by the diagonal
difference `file - rank` (signed); `none` models the wildcard panic arm. -/
def getNorthEastDiagonal (pos : Pos) : Option (List Pos) :=
  let difference : Int := (pos.2 : Int) - (pos.1 : Int)
  if difference = 7 then some [(0, 7)]
  else if difference = 6 then some [(0, 6), (1, 7)]
  else if difference = 5 then some [(0, 5), (1, 6), (2, 7)]
  else if difference = 4 then some [(0, 4), (1, 5), (2, 6), (3, 7)]
  else if difference = 3 then some [(0, 3), (1, 4), (2, 5), (3, 6), (4, 7)]
  else if difference = 2 then
    some [(0, 2), (1, 3), (2, 4), (3, 5), (4, 6), (5, 7)]
  else if difference = 1 then
    some [(0, 1), (1, 2), (2, 3), (3, 4), (4, 5), (5, 6), (6, 7)]
  else if difference = 0 then
    some [(0, 0), (1, 1), (2, 2), (3, 3), (4, 4), (5, 5), (6, 6), (7, 7)]
  else if difference = -1 then
    some [(1, 0), (2, 1), (3, 2), (4, 3), (5, 4), (6, 5), (7, 6)]
  else if difference = -2 then
    some [(2, 0), (3, 1), (4, 2), (5, 3), (6, 4), (7, 5)]
  else if difference = -3 then some [(3, 0), (4, 1), (5, 2), (6, 3), (7, 4)]
  else if difference = -4 then some [(4, 0), (5, 1), (6, 2), (7, 3)]
  else if difference = -5 then some [(5, 0), (6, 1), (7, 2)]
  else if difference = -6 then some [(6, 0), (7, 1)]
  else if difference = -7 then some [(7, 0)]
  else none

/-! ### Definitions taken from the wording of the specification, for the
refinement claims -/

/-- The quiet-move set as the spec words it: the one- and two-square
forward squares when on the starting rank (rank 1 for White, rank 6 for
Black) and the single forward square otherwise, kept only when on the
board. -/
def pawnQuietSpec (c : Color) (pos : Pos) : Finset Pos :=
  match c with
  | .white =>
    if pos.1 = 1 then {(2, pos.2), (3, pos.2)}
    else if pos.1 + 1 ≤ 7 then {(pos.1 + 1, pos.2)} else ∅
  | .black =>
    if pos.1 = 6 then {(5, pos.2), (4, pos.2)}
    else if 1 ≤ pos.1 then {(pos.1 - 1, pos.2)} else ∅

/-- The on-board forward-diagonal squares as the spec words them:
forward-left and forward-right, discarded when off the board. -/
def pawnDiagSpec (c : Color) (pos : Pos) : Finset Pos :=
  match c with
  | .white =>
    (if pos.1 + 1 ≤ 7 ∧ 1 ≤ pos.2 then {(pos.1 + 1, pos.2 - 1)} else ∅) ∪
      (if pos.1 + 1 ≤ 7 ∧ pos.2 + 1 ≤ 7 then {(pos.1 + 1, pos.2 + 1)}
       else ∅)
  | .black =>
    (if 1 ≤ pos.1 ∧ 1 ≤ pos.2 then {(pos.1 - 1, pos.2 - 1)} else ∅) ∪
      (if 1 ≤ pos.1 ∧ pos.2 + 1 ≤ 7 then {(pos.1 - 1, pos.2 + 1)} else ∅)

/-- The pawn pseudo-legal move set as the spec words it: the quiet set
minus all occupied squares, union the on-board diagonals that hold a rival
piece. -/
def pawnSpecGetMoves (c : Color) (pos : Pos) (team rival : Finset Pos) :
    Finset Pos :=
  (pawnQuietSpec c pos \ (team ∪ rival)) ∪ (pawnDiagSpec c pos ∩ rival)

/-- Every board square on one of the eight queen rays from `pos`: same
rank, same file, same diagonal or same anti-diagonal, the origin square
excluded. -/
def queenRaySquares (pos : Pos) : Finset Pos :=
  (Finset.product (Finset.range 8) (Finset.range 8)).filter
    (fun q => q ≠ pos ∧ (q.1 = pos.1 ∨ q.2 = pos.2 ∨
      q.1 + pos.2 = pos.1 + q.2 ∨ q.1 + q.2 = pos.1 + pos.2))

/-- The officer kind on file `f` of a back rank, as the spec words it:
rook, knight, bishop, queen, king, bishop, knight, rook across files 0 to
7. -/
def officerOf (f : Nat) : PieceKind :=
  if f = 0 ∨ f = 7 then .rook
  else if f = 1 ∨ f = 6 then .knight
  else if f = 2 ∨ f = 5 then .bishop
  else if f = 3 then .queen
  else .king

/-- The piece the standard starting arrangement places on a square, as the
spec words it: White pawns on rank 1, Black pawns on rank 6, White
officers on rank 0, Black officers on rank 7, every other square empty. -/
def startingPieceAt (p : Pos) : Option Piece :=
  if p.2 ≤ 7 then
    if p.1 = 1 then some ⟨.pawn, .white, p⟩
    else if p.1 = 6 then some ⟨.pawn, .black, p⟩
    else if p.1 = 0 then some ⟨officerOf p.2, .white, p⟩
    else if p.1 = 7 then some ⟨officerOf p.2, .black, p⟩
    else none
  else none

/-- The board mapping invariant: every stored piece is keyed under its own
recorded position. -/
def Wellkeyed (b : Board) : Prop := ∀ e ∈ b.pieces, e.2.pos = e.1

instance (b : Board) : Decidable (Wellkeyed b) := by
  unfold Wellkeyed; infer_instance

/-! ### Association-list lemmas -/

/-- Removing a different key does not change what `find?` locates. -/
lemma find?_removeKey_ne (l : List (Pos × Piece)) (x q : Pos) (h : q ≠ x) :
    (removeKey l x).find? (fun e => decide (e.1 = q)) =
      l.find? (fun e => decide (e.1 = q)) := by
  unfold removeKey
  rw [List.find?_filter]
  congr 1
  funext e
  by_cases he : e.1 = q
  · simp [he, h]
  · simp [he]

/-- After removing a key, `find?` for that key fails. -/
lemma find?_removeKey_self (l : List (Pos × Piece)) (x : Pos) :
    (removeKey l x).find? (fun e => decide (e.1 = x)) = none := by
  rw [List.find?_eq_none]
  intro e he
  have := (List.mem_filter.mp he).2
  simpa using this

/-- Members survive `removeKey` only from the original list. -/
lemma mem_of_mem_removeKey {l : List (Pos × Piece)} {x : Pos}
    {e : Pos × Piece} (h : e ∈ removeKey l x) : e ∈ l :=
  (List.mem_filter.mp h).1

/-- Characterization of a successful `move_piece`: the origin was occupied
and the result is the explicit re-keyed list. -/
lemma movePiece_eq_some {b : Board} {p t : Pos} {b2 : Board}
    (h : b.movePiece p t = some b2) :
    ∃ pc, b.lookup p = some pc ∧
      b2 = ⟨(t, { pc with pos := t }) :: removeKey (removeKey b.pieces p) t⟩ := by
  unfold Board.movePiece at h
  rcases hl : b.lookup p with _ | pc
  · rw [hl] at h
    simp at h
  · rw [hl] at h
    simp only [Option.map_some', Option.some.injEq] at h
    exact ⟨pc, rfl, h.symm⟩

/-- A successful `move_piece` preserves the key invariant. -/
lemma wellkeyed_movePiece {b : Board} {p t : Pos} {b2 : Board}
    (hw : Wellkeyed b) (h : b.movePiece p t = some b2) : Wellkeyed b2 := by
  obtain ⟨pc, _, rfl⟩ := movePiece_eq_some h
  intro e he
  rcases List.mem_cons.mp he with rfl | he2
  · rfl
  · exact hw e (mem_of_mem_removeKey (mem_of_mem_removeKey he2))

/-- A piece delivered by lookup on a well-keyed board records the looked-up
position. -/
lemma wellkeyed_lookup {b : Board} {p : Pos} {pc : Piece}
    (hw : Wellkeyed b) (h : b.lookup p = some pc) : pc.pos = p := by
  unfold Board.lookup at h
  rcases hfind : b.pieces.find? (fun e => decide (e.1 = p)) with _ | e
  · rw [hfind] at h
    simp at h
  · rw [hfind] at h
    simp only [Option.map_some', Option.some.injEq] at h
    have h1 := List.find?_some hfind
    have h2 := List.mem_of_find?_eq_some hfind
    simp only [decide_eq_true_eq] at h1
    rw [← h, hw e h2, h1]

/-! ### Claim theorems -/

/-- C4: the board mapping invariant (every stored piece keyed under its own
recorded position, so lookup returns a piece recording the looked-up
square) holds for the board produced by `new` and is preserved by every
successful `move_piece`, and hence by `capture` and `do_move` as well. -/
theorem board_key_invariant :
    Wellkeyed Board.new ∧
    (∀ b : Board, ∀ p : Pos, ∀ pc : Piece, Wellkeyed b →
      b.lookup p = some pc → pc.pos = p) ∧
    (∀ b : Board, ∀ p t : Pos, ∀ b2 : Board, Wellkeyed b →
      b.movePiece p t = some b2 → Wellkeyed b2) ∧
    (∀ b : Board, ∀ p t : Pos, ∀ m : String, ∀ b2 : Board, Wellkeyed b →
      b.capture p t = some (m, b2) → Wellkeyed b2) ∧
    (∀ b : Board, ∀ s t : String, ∀ b2 : Board, Wellkeyed b →
      b.doMove s t = some b2 → Wellkeyed b2) := by
  refine ⟨by decide, ?_, ?_, ?_, ?_⟩
  · exact fun b p pc hw h => wellkeyed_lookup hw h
  · exact fun b p t b2 hw h => wellkeyed_movePiece hw h
  · intro b p t m b2 hw h
    unfold Board.capture at h
    rcases h1 : b.lookup p with _ | pc1 <;> rcases h2 : b.lookup t with _ | pc2 <;>
      rw [h1, h2] at h <;> simp at h
    rcases hmv : b.movePiece p t with _ | b3
    · rw [hmv] at h
      simp at h
    · rw [hmv] at h
      simp only [Option.map_some', Option.some.injEq] at h
      exact h.1 ▸ wellkeyed_movePiece hw hmv
  · intro b s t b2 hw h
    unfold Board.doMove at h
    rcases hs : parseSquare s with _ | p <;> rw [hs] at h
    · simp at h
    · rcases ht : parseSquare t with _ | q <;> rw [ht] at h
      · simp at h
      · simp only [Option.some_bind] at h
        exact wellkeyed_movePiece hw h

/-- C4 witness: the invariant evaluated on the new board, on a pawn move,
on a capture and on a `do_move`, and the lookup consequence at e2. -/
theorem board_key_invariant_witness :
    Wellkeyed Board.new ∧
    ((⟨.pawn, .white, (1, 4)⟩ : Piece).pos = ((1, 4) : Pos)) ∧
    Wellkeyed ((Board.new.movePiece (1, 4) (3, 4)).getD ⟨[]⟩) ∧
    Wellkeyed ((Board.new.capture (1, 4) (6, 4)).getD ("", ⟨[]⟩)).2 ∧
    Wellkeyed ((Board.new.doMove "e2" "e4").getD ⟨[]⟩) := by
  obtain ⟨h1, h2, h3, h4, h5⟩ := board_key_invariant
  refine ⟨h1, h2 Board.new (1, 4) _ h1 (by decide),
    h3 Board.new (1, 4) (3, 4) _ h1 (by decide),
    h4 Board.new (1, 4) (6, 4)
      ((Board.new.capture (1, 4) (6, 4)).getD ("", ⟨[]⟩)).1 _ h1 (by decide),
    h5 Board.new "e2" "e4" _ h1 (by decide)⟩

/-- C5: a successful `move_piece` stores the mover, with its recorded
position overwritten, under the target key; it empties the origin when the
origin and target differ; and it leaves every other square unchanged (in
particular whatever occupied the target is silently discarded). -/
theorem movePiece_frame (b : Board) (p t : Pos) (pc : Piece)
    (hpc : b.lookup p = some pc) :
    ∃ b2 : Board, b.movePiece p t = some b2 ∧
      b2.lookup t = some { pc with pos := t } ∧
      (∀ q : Pos, q ≠ p → q ≠ t → b2.lookup q = b.lookup q) ∧
      (p ≠ t → b2.lookup p = none) := by
  refine ⟨⟨(t, { pc with pos := t }) :: removeKey (removeKey b.pieces p) t⟩,
    ?_, ?_, ?_, ?_⟩
  · unfold Board.movePiece
    rw [hpc]
    rfl
  · unfold Board.lookup
    rw [List.find?_cons_of_pos _ (by simp)]
    rfl
  · intro q hqp hqt
    unfold Board.lookup
    rw [List.find?_cons_of_neg _ (by simp; exact fun hh => hqt hh.symm)]
    rw [find?_removeKey_ne _ _ _ hqt, find?_removeKey_ne _ _ _ hqp]
  · intro hpt
    unfold Board.lookup
    rw [List.find?_cons_of_neg _ (by simp; exact fun hh => hpt hh.symm)]
    rw [find?_removeKey_ne _ _ _ hpt, find?_removeKey_self]
    rfl

/-- C5 witness: moving the e2 pawn onto the d7 pawn square discards the
occupant, re-keys the mover there, and leaves e.g. a1 unchanged. -/
theorem movePiece_frame_witness :
    Board.new.lookup (1, 4) = some ⟨.pawn, .white, (1, 4)⟩ ∧
    (∃ b2 : Board, Board.new.movePiece (1, 4) (6, 3) = some b2 ∧
      b2.lookup (6, 3) = some { (⟨.pawn, .white, (1, 4)⟩ : Piece) with
        pos := (6, 3) } ∧
      (∀ q : Pos, q ≠ (1, 4) → q ≠ (6, 3) →
        b2.lookup q = Board.new.lookup q) ∧
      (((1, 4) : Pos) ≠ (6, 3) → b2.lookup (1, 4) = none)) :=
  ⟨by decide, movePiece_frame Board.new (1, 4) (6, 3) _ (by decide)⟩

/-- C7: relocating from an empty square, querying legal moves of an empty
square, and locating a missing king each abort (return `none`) rather than
fabricate a result, and under the corresponding precondition the abort is
unreachable. -/
theorem abort_on_contract_violation :
    (∀ b : Board, ∀ p t : Pos, b.lookup p = none → b.movePiece p t = none) ∧
    (∀ b : Board, ∀ p t : Pos, (b.lookup p).isSome →
      (b.movePiece p t).isSome) ∧
    (∀ b : Board, ∀ p : Pos, b.lookup p = none →
      b.getLegalSquares p = none) ∧
    (∀ b : Board, ∀ p : Pos, ∀ pc : Piece, b.lookup p = some pc →
      (∀ d ∈ pc.getMoves (b.positions pc.color)
        (b.positions pc.color.opposite), (simCheck b pc pc.color d).isSome) →
      (b.getLegalSquares p).isSome) ∧
    (∀ b : Board, ∀ c : Color, b.getKingPosition c = none ↔
      ∀ e ∈ b.pieces, ¬(e.2.color = c ∧ e.2.kind = PieceKind.king)) ∧
    (∀ b : Board, ∀ c : Color, (b.isCheck c).isSome ↔
      (b.getKingPosition c).isSome) := by
  refine ⟨?_, ?_, ?_, ?_, ?_, ?_⟩
  · intro b p t h
    unfold Board.movePiece
    rw [h]
    rfl
  · intro b p t h
    rcases hl : b.lookup p with _ | pc
    · rw [hl] at h
      simp at h
    · unfold Board.movePiece
      rw [hl]
      rfl
  · intro b p h
    unfold Board.getLegalSquares
    rw [h]
    rfl
  · intro b p pc hpc hall
    unfold Board.getLegalSquares
    rw [hpc, Option.some_bind]
    simp only [dif_pos hall]
    rfl
  · intro b c
    unfold Board.getKingPosition
    constructor
    · intro h e he
      rcases hf : b.pieces.find? (fun e =>
          decide (e.2.color = c ∧ e.2.kind = PieceKind.king)) with _ | e2
      · rw [List.find?_eq_none] at hf
        simpa using hf e he
      · rw [hf] at h
        simp at h
    · intro h
      rw [Option.map_eq_none', List.find?_eq_none]
      intro e he
      simpa using h e he
  · intro b c
    unfold Board.isCheck
    rcases hk : b.getKingPosition c with _ | kp <;> simp

/-- C7 witness: an empty d4 square aborts both `move_piece` and
`get_legal_squares` on the new board, an occupied e2 succeeds, a board
without a White king aborts the king search, and the new board does not. -/
theorem abort_on_contract_violation_witness :
    Board.new.movePiece (3, 3) (4, 3) = none ∧
    (Board.new.movePiece (1, 4) (3, 4)).isSome ∧
    Board.new.getLegalSquares (3, 3) = none ∧
    (Board.new.getLegalSquares (1, 4)).isSome ∧
    ((Board.mk []).getKingPosition .white = none ↔
      ∀ e ∈ (Board.mk []).pieces,
        ¬(e.2.color = .white ∧ e.2.kind = PieceKind.king)) ∧
    ((Board.new.isCheck .white).isSome ↔
      (Board.new.getKingPosition .white).isSome) := by
  obtain ⟨h1, h2, h3, h4, h5, h6⟩ := abort_on_contract_violation
  exact ⟨h1 Board.new (3, 3) (4, 3) (by decide),
    h2 Board.new (1, 4) (3, 4) (by decide),
    h3 Board.new (3, 3) (by decide),
    h4 Board.new (1, 4) ⟨.pawn, .white, (1, 4)⟩ (by decide) (by decide),
    h5 (Board.mk []) .white,
    h6 Board.new .white⟩

/-- C1: a successful `get_legal_squares` result is a subset of the piece
pseudo-legal `get_moves` output, and a candidate destination is retained
exactly when the board obtained by cloning and relocating the piece to it
is not in check for the mover color. -/
theorem getLegalSquares_spec (b : Board) (p : Pos) (pc : Piece)
    (s : Finset Pos) (hpc : b.lookup p = some pc) (hpos : pc.pos = p)
    (hs : b.getLegalSquares p = some s) :
    s ⊆ pc.getMoves (b.positions pc.color) (b.positions pc.color.opposite) ∧
    ∀ d ∈ pc.getMoves (b.positions pc.color) (b.positions pc.color.opposite),
      ∀ b2 : Board, b.movePiece p d = some b2 →
        (d ∈ s ↔ b2.isCheck pc.color = some false) := by
  unfold Board.getLegalSquares at hs
  rw [hpc, Option.some_bind] at hs
  dsimp only at hs
  split at hs
  · obtain rfl := Option.some.inj hs
    refine ⟨Finset.filter_subset _ _, ?_⟩
    intro d hd b2 hb2
    rw [Finset.mem_filter]
    unfold simCheck
    rw [hpos, hb2, Option.some_bind]
    simp [hd]
  · exact absurd hs (by simp)

/-- C1 witness: a small board with the White king on a1 and a White pawn
on a2; the pawn legal squares are its two quiet moves and the filter
condition holds at each pseudo-legal destination. -/
theorem getLegalSquares_spec_witness :
    (Board.mk [((0, 0), ⟨.king, .white, (0, 0)⟩),
      ((1, 0), ⟨.pawn, .white, (1, 0)⟩)]).lookup (1, 0) =
        some ⟨.pawn, .white, (1, 0)⟩ ∧
    (Piece.mk .pawn .white (1, 0)).pos = ((1, 0) : Pos) ∧
    (Board.mk [((0, 0), ⟨.king, .white, (0, 0)⟩),
      ((1, 0), ⟨.pawn, .white, (1, 0)⟩)]).getLegalSquares (1, 0) =
        some {(2, 0), (3, 0)} ∧
    ({(2, 0), (3, 0)} : Finset Pos) ⊆
      (Piece.mk .pawn .white (1, 0)).getMoves
        ((Board.mk [((0, 0), ⟨.king, .white, (0, 0)⟩),
          ((1, 0), ⟨.pawn, .white, (1, 0)⟩)]).positions .white)
        ((Board.mk [((0, 0), ⟨.king, .white, (0, 0)⟩),
          ((1, 0), ⟨.pawn, .white, (1, 0)⟩)]).positions Color.white.opposite) :=
  ⟨by decide, by decide, by decide,
    (getLegalSquares_spec
      (Board.mk [((0, 0), ⟨.king, .white, (0, 0)⟩),
        ((1, 0), ⟨.pawn, .white, (1, 0)⟩)])
      (1, 0) ⟨.pawn, .white, (1, 0)⟩ {(2, 0), (3, 0)}
      (by decide) (by decide) (by decide)).1⟩

/-- C2: when the board has a king of color `c`, `is_check` returns true
exactly when some piece of the opposite color has the king square among
its pseudo-legal moves computed with the team and rival occupancy sets
reversed relative to `c`. -/
theorem isCheck_spec (b : Board) (c : Color) (kp : Pos)
    (hk : b.getKingPosition c = some kp) :
    (b.isCheck c = some true ↔
      ∃ e ∈ b.pieces, e.2.color = c.opposite ∧
        kp ∈ e.2.getMoves (b.positions c.opposite) (b.positions c)) := by
  unfold Board.isCheck
  rw [hk, Option.map_some']
  dsimp only
  rw [Option.some.injEq, List.any_eq_true]
  constructor
  · rintro ⟨e, he, hp⟩
    have hmem := List.mem_filter.mp he
    refine ⟨e, hmem.1, ?_, ?_⟩
    · simpa using hmem.2
    · simpa using hp
  · rintro ⟨e, he, hc, hkp⟩
    exact ⟨e, List.mem_filter.mpr ⟨he, by simpa using hc⟩, by simpa using hkp⟩

/-- C2 witness: White king on a1 and Black rook on h1; the check test for
White is characterized by the existence of an attacking Black piece. -/
theorem isCheck_spec_witness :
    (Board.mk [((0, 0), ⟨.king, .white, (0, 0)⟩),
      ((0, 7), ⟨.rook, .black, (0, 7)⟩)]).getKingPosition .white =
        some (0, 0) ∧
    ((Board.mk [((0, 0), ⟨.king, .white, (0, 0)⟩),
      ((0, 7), ⟨.rook, .black, (0, 7)⟩)]).isCheck .white = some true ↔
      ∃ e ∈ (Board.mk [((0, 0), ⟨.king, .white, (0, 0)⟩),
        ((0, 7), ⟨.rook, .black, (0, 7)⟩)]).pieces,
        e.2.color = Color.white.opposite ∧
          ((0, 0) : Pos) ∈ e.2.getMoves
            ((Board.mk [((0, 0), ⟨.king, .white, (0, 0)⟩),
              ((0, 7), ⟨.rook, .black, (0, 7)⟩)]).positions
                Color.white.opposite)
            ((Board.mk [((0, 0), ⟨.king, .white, (0, 0)⟩),
              ((0, 7), ⟨.rook, .black, (0, 7)⟩)]).positions .white)) :=
  ⟨by decide,
    isCheck_spec (Board.mk [((0, 0), ⟨.king, .white, (0, 0)⟩),
      ((0, 7), ⟨.rook, .black, (0, 7)⟩)]) .white (0, 0) (by decide)⟩

/-- C6 counterexample: on the new board, capturing from e2 onto the empty
e4 square aborts (the announcement unwraps the name of a piece at the
target), while `move_piece` with the same arguments succeeds; so the two
invocations do not produce the same board state for every origin/target
pair. -/
theorem capture_abort_counterexample :
    ¬ ((Board.new.capture (1, 4) (3, 4)).map Prod.snd =
      Board.new.movePiece (1, 4) (3, 4)) := by
  decide

/-- C6 amended: whenever the target square is occupied (so the capture
announcement can be formed), `capture` produces exactly the same board
state as `move_piece`; the two differ only in the returned announcement. -/
theorem capture_state_eq_movePiece (b : Board) (p t : Pos)
    (ht : (b.lookup t).isSome) :
    (b.capture p t).map Prod.snd = b.movePiece p t := by
  unfold Board.capture Board.movePiece
  rcases hp : b.lookup p with _ | pc1 <;>
    rcases ht2 : b.lookup t with _ | pc2
  · rw [ht2] at ht
    simp at ht
  · rfl
  · rw [ht2] at ht
    simp at ht
  · rfl

/-- C6 witness: capturing the d7 pawn with the e2 pawn mutates the board
exactly as the bare `move_piece` does. -/
theorem capture_state_eq_movePiece_witness :
    (Board.new.lookup (6, 3)).isSome ∧
    (Board.new.capture (1, 4) (6, 3)).map Prod.snd =
      Board.new.movePiece (1, 4) (6, 3) :=
  ⟨by decide, capture_state_eq_movePiece Board.new (1, 4) (6, 3) (by decide)⟩

/-- Membership in the on-board filter of a signed coordinate set. -/
lemma mem_asBoardPositions {s : Finset (Int × Int)} {d : Pos} :
    d ∈ asBoardPositions s ↔
      (((d.1 : Int), (d.2 : Int)) ∈ s ∧ d.1 ≤ 7 ∧ d.2 ≤ 7) := by
  unfold asBoardPositions
  simp only [Finset.mem_image, Finset.mem_filter]
  constructor
  · rintro ⟨q, ⟨hq, h0, h1, h2, h3⟩, rfl⟩
    have e1 : ((q.1.toNat : Int)) = q.1 := Int.toNat_of_nonneg h0
    have e2 : ((q.2.toNat : Int)) = q.2 := Int.toNat_of_nonneg h2
    refine ⟨?_, by omega, by omega⟩
    rw [e1, e2]
    simpa using hq
  · rintro ⟨hq, h1, h2⟩
    refine ⟨((d.1 : Int), (d.2 : Int)), ⟨hq, ?_, ?_, ?_, ?_⟩, ?_⟩ <;>
      dsimp only <;> [omega; omega; omega; omega; simp]

/-- The source quiet-move computation agrees with the spec wording on any
position with an in-range file. -/
lemma pawnMoves_eq_quietSpec (c : Color) (pos : Pos) (h1 : pos.1 ≤ 7)
    (h2 : pos.2 ≤ 7) : pawnMoves c pos = pawnQuietSpec c pos := by
  obtain ⟨r, f⟩ := pos
  simp only at h1 h2
  ext d
  obtain ⟨d1, d2⟩ := d
  cases c <;> unfold pawnMoves pawnQuietSpec <;> dsimp only
  · by_cases hr : r = 1
    · rw [if_pos hr, if_pos hr]
      simp only [mem_asBoardPositions, Finset.mem_insert,
        Finset.mem_singleton, Prod.mk.injEq]
      omega
    · rw [if_neg hr, if_neg hr]
      by_cases h7 : r + 1 ≤ 7
      · rw [if_pos h7]
        simp only [mem_asBoardPositions, Finset.mem_singleton, Prod.mk.injEq]
        omega
      · rw [if_neg h7]
        simp only [mem_asBoardPositions, Finset.mem_singleton,
          Finset.not_mem_empty, Prod.mk.injEq, iff_false]
        omega
  · by_cases hr : r = 6
    · rw [if_pos hr, if_pos hr]
      simp only [mem_asBoardPositions, Finset.mem_insert,
        Finset.mem_singleton, Prod.mk.injEq]
      omega
    · rw [if_neg hr, if_neg hr]
      by_cases h0 : 1 ≤ r
      · rw [if_pos h0]
        simp only [mem_asBoardPositions, Finset.mem_singleton, Prod.mk.injEq]
        omega
      · rw [if_neg h0]
        simp only [mem_asBoardPositions, Finset.mem_singleton,
          Finset.not_mem_empty, Prod.mk.injEq, iff_false]
        omega

/-- The source diagonal-capture computation agrees with the spec wording
on any position with an in-range file. -/
lemma pawnCaptureMoves_eq_diagSpec (c : Color) (pos : Pos) (h1 : pos.1 ≤ 7)
    (h2 : pos.2 ≤ 7) : pawnCaptureMoves c pos = pawnDiagSpec c pos := by
  obtain ⟨r, f⟩ := pos
  simp only at h1 h2
  ext d
  obtain ⟨d1, d2⟩ := d
  cases c <;> unfold pawnCaptureMoves pawnDiagSpec <;> dsimp only <;>
    rw [Finset.mem_union] <;>
    simp only [mem_asBoardPositions, Finset.mem_insert, Finset.mem_singleton,
      Prod.mk.injEq] <;>
    split_ifs <;>
    simp only [Finset.mem_singleton, Finset.not_mem_empty, Prod.mk.injEq,
      or_false, false_or, iff_false] <;>
    omega

/-- Every quiet destination keeps the pawn file. -/
lemma pawnQuietSpec_snd {c : Color} {pos d : Pos}
    (h : d ∈ pawnQuietSpec c pos) : d.2 = pos.2 := by
  obtain ⟨r, f⟩ := pos
  obtain ⟨d1, d2⟩ := d
  cases c <;> unfold pawnQuietSpec at h <;> dsimp only at h <;>
    split_ifs at h <;>
    simp only [Finset.mem_insert, Finset.mem_singleton,
      Finset.not_mem_empty, Prod.mk.injEq] at h <;>
    omega

/-- Every diagonal candidate changes the pawn file. -/
lemma pawnDiagSpec_snd {c : Color} {pos d : Pos}
    (h : d ∈ pawnDiagSpec c pos) : d.2 ≠ pos.2 := by
  obtain ⟨r, f⟩ := pos
  obtain ⟨d1, d2⟩ := d
  cases c <;> unfold pawnDiagSpec at h <;> dsimp only at h <;>
    rw [Finset.mem_union] at h <;>
    split_ifs at h <;>
    simp only [Finset.mem_insert, Finset.mem_singleton,
      Finset.not_mem_empty, Prod.mk.injEq, or_false, false_or] at h <;>
    omega

/-- C3: on disjoint occupancy sets the pawn `get_moves` equals the spec
formula (quiet set minus all occupied squares, union on-board diagonals
holding a rival piece); diagonal candidates without a rival occupant are
never produced; and the two-square move survives whenever its own target
square is free, even with the intermediate square occupied. -/
theorem pawn_getMoves_spec (c : Color) (pos : Pos) (team rival : Finset Pos)
    (h1 : pos.1 ≤ 7) (h2 : pos.2 ≤ 7) (_hdis : team ∩ rival = ∅) :
    pawnGetMoves c pos team rival = pawnSpecGetMoves c pos team rival ∧
    (∀ d ∈ pawnDiagSpec c pos, d ∉ rival →
      d ∉ pawnGetMoves c pos team rival) ∧
    (c = .white → pos.1 = 1 → ((3, pos.2) : Pos) ∉ team ∪ rival →
      ((3, pos.2) : Pos) ∈ pawnGetMoves c pos team rival) ∧
    (c = .black → pos.1 = 6 → ((4, pos.2) : Pos) ∉ team ∪ rival →
      ((4, pos.2) : Pos) ∈ pawnGetMoves c pos team rival) := by
  have hm := pawnMoves_eq_quietSpec c pos h1 h2
  have hc := pawnCaptureMoves_eq_diagSpec c pos h1 h2
  refine ⟨?_, ?_, ?_, ?_⟩
  · unfold pawnGetMoves pawnSpecGetMoves
    rw [hm, hc]
  · intro d hd hdr hmem
    unfold pawnGetMoves at hmem
    rcases Finset.mem_union.mp hmem with hq | hcap
    · have hq2 := Finset.mem_sdiff.mp hq
      rw [hm] at hq2
      exact pawnDiagSpec_snd hd (pawnQuietSpec_snd hq2.1)
    · exact hdr (Finset.mem_inter.mp hcap).2
  · rintro rfl hr hfree
    unfold pawnGetMoves
    refine Finset.mem_union_left _ (Finset.mem_sdiff.mpr ⟨?_, hfree⟩)
    rw [hm]
    unfold pawnQuietSpec
    simp [hr]
  · rintro rfl hr hfree
    unfold pawnGetMoves
    refine Finset.mem_union_left _ (Finset.mem_sdiff.mpr ⟨?_, hfree⟩)
    rw [hm]
    unfold pawnQuietSpec
    simp [hr]

/-- C3 witness: a White pawn on e2 with its own piece blocking e3 and a
rival on f3; the two-square move to e4 survives and the formula matches
the spec wording. -/
theorem pawn_getMoves_spec_witness :
    ((1, 4) : Pos).1 ≤ 7 ∧ ((1, 4) : Pos).2 ≤ 7 ∧
    ({((2, 4) : Pos)} : Finset Pos) ∩ {((2, 5) : Pos)} = ∅ ∧
    pawnGetMoves .white (1, 4) {(2, 4)} {(2, 5)} =
      pawnSpecGetMoves .white (1, 4) {(2, 4)} {(2, 5)} ∧
    (Color.white = .white → ((1, 4) : Pos).1 = 1 →
      ((3, 4) : Pos) ∉ ({((2, 4) : Pos)} : Finset Pos) ∪ {((2, 5) : Pos)} →
      ((3, 4) : Pos) ∈ pawnGetMoves .white (1, 4) {(2, 4)} {(2, 5)}) := by
  have h := pawn_getMoves_spec .white (1, 4) {(2, 4)} {(2, 5)}
    (by decide) (by decide) (by decide)
  exact ⟨by decide, by decide, by decide, h.1, h.2.2.1⟩

set_option maxHeartbeats 4000000 in
/-- C8: queen pseudo-legal moves are exactly the union of the rook
ray-walk result and the bishop ray-walk result from the same position
against the same occupancy; on an empty board they are every square of the
four orthogonal and four diagonal rays. -/
theorem queen_union_spec :
    (∀ pos : Pos, ∀ team rival : Finset Pos,
      queenMoves pos team rival =
        rookMoves pos team rival ∪ bishopMoves pos team rival) ∧
    (∀ r : Nat, r < 8 → ∀ f : Nat, f < 8 →
      queenMoves (r, f) ∅ ∅ = queenRaySquares (r, f)) :=
  ⟨fun pos team rival => rfl, by decide⟩

/-- C8 witness: the queen on a1 of an empty board covers exactly its three
rays, the configuration of the repository queen test. -/
theorem queen_union_spec_witness :
    (0 : Nat) < 8 ∧
    queenMoves (0, 0) ∅ ∅ = queenRaySquares (0, 0) :=
  ⟨by decide, queen_union_spec.2 0 (by decide) 0 (by decide)⟩

/-- C9: `Board::new` realizes the standard starting arrangement described
by the spec formula on every board square, occupies no square outside the
board, and stores exactly 32 pieces. -/
theorem board_new_arrangement :
    (∀ r : Nat, r < 8 → ∀ f : Nat, f < 8 →
      Board.new.lookup (r, f) = startingPieceAt (r, f)) ∧
    (∀ p : Pos, ∀ pc : Piece, Board.new.lookup p = some pc →
      p.1 < 8 ∧ p.2 < 8) ∧
    Board.new.pieces.length = 32 := by
  refine ⟨by decide, ?_, by decide⟩
  intro p pc h
  unfold Board.lookup at h
  rcases hf : Board.new.pieces.find? (fun e => decide (e.1 = p)) with _ | e
  · rw [hf] at h
    simp at h
  · have hp := List.find?_some hf
    have hmem := List.mem_of_find?_eq_some hf
    simp only [decide_eq_true_eq] at hp
    have hb : ∀ e ∈ Board.new.pieces, e.1.1 < 8 ∧ e.1.2 < 8 := by decide
    rw [← hp]
    exact hb e hmem

/-- C9 witness: the arrangement formula evaluated on the White king square
and the bound consequence evaluated on the e2 pawn. -/
theorem board_new_arrangement_witness :
    (0 : Nat) < 8 ∧
    Board.new.lookup (0, 4) = startingPieceAt (0, 4) ∧
    Board.new.lookup (1, 4) = some ⟨.pawn, .white, (1, 4)⟩ ∧
    (((1, 4) : Pos).1 < 8 ∧ ((1, 4) : Pos).2 < 8) :=
  ⟨by decide, board_new_arrangement.1 0 (by decide) 4 (by decide),
    by decide,
    board_new_arrangement.2.1 (1, 4) ⟨.pawn, .white, (1, 4)⟩ (by decide)⟩

/-- C10: on every board square the two diagonal tables of the task_7
bishop return a value (their wildcard abort arms are unreachable) and the
returned diagonal contains the input square itself. -/
theorem diagonal_tables_total :
    ∀ r : Nat, r < 8 → ∀ f : Nat, f < 8 →
      (getSouthEastDiagonal (r, f)).isSome ∧
        ((r, f) : Pos) ∈ (getSouthEastDiagonal (r, f)).getD [] ∧
        (getNorthEastDiagonal (r, f)).isSome ∧
        ((r, f) : Pos) ∈ (getNorthEastDiagonal (r, f)).getD [] := by
  decide

/-- C10 witness: the diagonal tables evaluated at d5. -/
theorem diagonal_tables_total_witness :
    (3 : Nat) < 8 ∧
    ((getSouthEastDiagonal (3, 4)).isSome ∧
      ((3, 4) : Pos) ∈ (getSouthEastDiagonal (3, 4)).getD [] ∧
      (getNorthEastDiagonal (3, 4)).isSome ∧
      ((3, 4) : Pos) ∈ (getNorthEastDiagonal (3, 4)).getD []) :=
  ⟨by decide, diagonal_tables_total 3 (by decide) 4 (by decide)⟩

end ChessWorkshop
